import Mathlib

-- Verification development for the payshares stellar-core crypto core:
-- a shallow embedding of src/crypto/SecretKey.cpp and src/util/HashOfHash.cpp.
-- External collaborators (libsodium signature primitives, the SHA256 digest
-- provider, hex and PsrKey text codecs) are kept abstract as function
-- parameters, matching the spec, which places them out of scope.

set_option autoImplicit false

namespace Payshares

-- Byte strings: the C++ code works over fixed size arrays and vectors of
-- uint8_t; we embed them as lists of natural numbers.
abbrev Bytes : Type := List Nat

-- Reduction modulo 2 to the 64, as performed by uint64_t and size_t arithmetic.
def uint64 (n : Nat) : Nat := n % 2 ^ 64

-- ## LRU cache
--
-- Modelled from the spec: the bounded cache type cache::lru_cache of
-- util/lrucache.hpp is not under src (only its instantiation in
-- SecretKey.cpp line 31 is). Per the spec it is a bounded associative
-- store, capacity fixed at construction, with strict least recently used
-- eviction; a read or a write refreshes recency. We represent it as an
-- association list ordered most recently used first.

structure Lru (K V : Type) where
  capacity : Nat
  items : List (K × V)
  deriving DecidableEq

section LruOps

variable {K V : Type} [DecidableEq K]

def Lru.eraseKey (l : List (K × V)) (k : K) : List (K × V) :=
  l.filter (fun p => decide (p.1 ≠ k))

def Lru.empty (K V : Type) (c : Nat) : Lru K V := ⟨c, []⟩

def Lru.find (c : Lru K V) (k : K) : Option V :=
  (c.items.find? (fun p => decide (p.1 = k))).map Prod.snd

def Lru.contains (c : Lru K V) (k : K) : Bool :=
  (c.find k).isSome

-- Insert: an existing binding of the key is removed, the new binding becomes
-- the most recent, and the least recently used binding is evicted if the
-- store would exceed its capacity.
def Lru.put (c : Lru K V) (k : K) (v : V) : Lru K V :=
  ⟨c.capacity, ((k, v) :: Lru.eraseKey c.items k).take c.capacity⟩

-- Lookup: on a hit the binding is refreshed to most recent.
def Lru.get (c : Lru K V) (k : K) : Option V × Lru K V :=
  match c.find k with
  | none => (none, c)
  | some v => (some v, ⟨c.capacity, (k, v) :: Lru.eraseKey c.items k⟩)

def Lru.size (c : Lru K V) : Nat := c.items.length

def Lru.clear (c : Lru K V) : Lru K V := ⟨c.capacity, []⟩

def Lru.putMany (c : Lru K V) (ks : List K) (v : V) : Lru K V :=
  ks.foldl (fun acc k => acc.put k v) c

end LruOps

-- ## Key, seed and signature data model (SecretKey.h / SecretKey.cpp)

structure PublicKey where
  ed25519 : Bytes
  deriving DecidableEq

structure SecretKey where
  mSecretKey : Bytes
  deriving DecidableEq

structure Seed where
  mSeed : Bytes
  deriving DecidableEq

inductive CryptoError where
  | invalidInput
  deriving DecidableEq

-- libsodium constants, pinned by the static asserts in SecretKey.cpp
-- lines 51 to 58.
def crypto_sign_SEEDBYTES : Nat := 32
def crypto_sign_SECRETKEYBYTES : Nat := 64
def crypto_sign_BYTES : Nat := 64

-- SecretKey::fromSeed, SecretKey.cpp lines 155 to 172: rejects a seed whose
-- length differs from crypto_sign_SEEDBYTES, otherwise derives the key pair
-- with the external primitive crypto_sign_seed_keypair, kept abstract as
-- seedKeypair, which maps a seed to the pair (public key bytes, secret key
-- bytes). The primitive is assumed to succeed, as the claim does.
def fromSeed (seedKeypair : Bytes → Bytes × Bytes) (seed : Bytes) :
    Except CryptoError SecretKey :=
  if seed.length ≠ crypto_sign_SEEDBYTES then
    Except.error CryptoError.invalidInput
  else
    Except.ok ⟨(seedKeypair seed).2⟩

-- SecretKey::getSeed, SecretKey.cpp lines 86 to 99: extracts the seed with
-- the external primitive crypto_sign_ed25519_sk_to_seed, kept abstract as
-- skToSeed, assumed to succeed.
def getSeed (skToSeed : Bytes → Bytes) (sk : SecretKey) : Seed :=
  ⟨skToSeed sk.mSecretKey⟩

-- SecretKey::getPublicKey, SecretKey.cpp lines 71 to 84, with the primitive
-- crypto_sign_ed25519_sk_to_pk kept abstract as skToPk.
def getPublicKey (skToPk : Bytes → Bytes) (sk : SecretKey) : PublicKey :=
  ⟨skToPk sk.mSecretKey⟩

-- ## Destructors (SecretKey.cpp lines 61 to 69)
--
-- Each destructor body is a single call std::memset(buf.data(), 0,
-- buf.size()), overwriting the first n bytes of the buffer with zero.

def memset (l : Bytes) (value : Nat) (n : Nat) : Bytes :=
  (l.take n).map (fun _ => value) ++ l.drop n

def secretKeyDestructor (sk : SecretKey) : Bytes :=
  memset sk.mSecretKey 0 sk.mSecretKey.length

def seedDestructor (sd : Seed) : Bytes :=
  memset sd.mSeed 0 sd.mSeed.length

-- ## Signature verification cache and entry point (SecretKey.cpp)

-- verifySigCacheKey, lines 36 to 47: the global hasher is reset and fed the
-- public key bytes, the signature bytes and the message bytes in that order;
-- this is the digest of their concatenation. The digest provider is external
-- and kept abstract as sha256.
def verifySigCacheKey (sha256 : Bytes → Bytes) (key : PublicKey)
    (signature : Bytes) (bin : Bytes) : Bytes :=
  sha256 (key.ed25519 ++ signature ++ bin)

-- The process wide mutable state touched by the verification entry point:
-- the cache gVerifySigCache and the counters gVerifyCacheHit and
-- gVerifyCacheMiss (SecretKey.cpp lines 30 to 34).
structure VState where
  cache : Lru Bytes Bool
  hit : Nat
  miss : Nat
  deriving DecidableEq

-- SecretKey.cpp line 31: gVerifySigCache is constructed with capacity 0xffff.
def gVerifySigCacheCapacity : Nat := 0xffff

def initialVState : VState := ⟨Lru.empty Bytes Bool gVerifySigCacheCapacity, 0, 0⟩

-- PubKeyUtils::verifySig, SecretKey.cpp lines 282 to 310. A signature whose
-- length is not 64 is rejected at once with no cache interaction. Otherwise
-- the cache key is computed; a cache hit bumps the hit counter and returns
-- the cached boolean; a miss bumps the miss counter, runs the external
-- primitive crypto_sign_verify_detached (abstract parameter verifyDetached),
-- stores the outcome and returns it.
def verifySig (verifyDetached : PublicKey → Bytes → Bytes → Bool)
    (sha256 : Bytes → Bytes) (st : VState) (key : PublicKey)
    (signature : Bytes) (bin : Bytes) : Bool × VState :=
  if signature.length ≠ 64 then
    (false, st)
  else
    let cacheKey := verifySigCacheKey sha256 key signature bin
    match st.cache.get cacheKey with
    | (some b, c) => (b, ⟨c, uint64 (st.hit + 1), st.miss⟩)
    | (none, _) =>
      let ok := verifyDetached key signature bin
      (ok, ⟨st.cache.put cacheKey ok, st.hit, uint64 (st.miss + 1)⟩)

-- PubKeyUtils::flushVerifySigCacheCounts, lines 205 to 213: returns the two
-- counters and resets both to zero in the same critical section.
def flushVerifySigCacheCounts (st : VState) : (Nat × Nat) × VState :=
  ((st.hit, st.miss), ⟨st.cache, 0, 0⟩)

-- PubKeyUtils::clearVerifySigCache, lines 198 to 203.
def clearVerifySigCache (st : VState) : VState :=
  ⟨st.cache.clear, st.hit, st.miss⟩

-- ## Diagnostic key dump (PsrKeyUtils::logKey, SecretKey.cpp lines 338 to 380)
--
-- The three interpretations are attempted in order: 64 character hex string,
-- encoded public key, encoded seed. Each attempt in the source is a try
-- block whose failure is swallowed by catch and control falls through to the
-- next attempt; following the spec design note, each attempt is embedded as
-- an optional parser. The parsers themselves (hexToBin256 of crypto/Hex.cpp,
-- KeyUtils::fromPsrKey and SecretKey::fromPsrKeySeed of repository files not
-- under src) are modelled from the spec as abstract optional parse functions.

inductive KeyReport where
  | hexKey (data : Bytes)
  | publicKeyReport (pk : PublicKey)
  | seedReport (sk : SecretKey)
  | unknownKeyType
  deriving DecidableEq

def logKey (hexToBin256 : String → Option Bytes)
    (fromPsrKey : String → Option PublicKey)
    (fromPsrKeySeed : String → Option SecretKey)
    (key : String) : KeyReport :=
  match hexToBin256 key with
  | some data => KeyReport.hexKey data
  | none =>
    match fromPsrKey key with
    | some pk => KeyReport.publicKeyReport pk
    | none =>
      match fromPsrKeySeed key with
      | some sk => KeyReport.seedReport sk
      | none => KeyReport.unknownKeyType

-- ## Standard hash of uint256 (util/HashOfHash.cpp lines 6 to 14)
--
-- size_t res = x[0]; res = (res << 8) | x[1]; res = (res << 8) | x[2];
-- res = (res << 8) | x[3]; return res. Each step is size_t (64 bit)
-- arithmetic, embedded with an explicit reduction modulo 2 to the 64.

def hashStep (res b : Nat) : Nat := uint64 ((res <<< 8) ||| b)

def hashUint256 (x : Bytes) : Nat :=
  hashStep (hashStep (hashStep (uint64 (x.getD 0 0)) (x.getD 1 0)) (x.getD 2 0))
    (x.getD 3 0)

-- std::hash of payshares::PublicKey, SecretKey.cpp lines 393 to 399:
-- delegates to the uint256 hash of the ed25519 bytes.
def hashPublicKey (k : PublicKey) : Nat := hashUint256 k.ed25519

-- ## Shared state access trace of PubKeyUtils::verifySig
--
-- To settle the locking claim we embed the body of verifySig (SecretKey.cpp
-- lines 282 to 310) a second time, as the sequence of accesses it performs
-- on process wide mutable state, in source order, together with the mutex
-- acquisitions and releases implied by the two lock_guard scopes.

inductive Ev where
  | hasherReset   -- gHasher->reset(), line 42 (via verifySigCacheKey)
  | hasherAdd     -- gHasher->add(...), lines 43 to 45
  | hasherFinish  -- gHasher->finish(), line 46
  | lockMutex     -- lock_guard construction, lines 295 and 307
  | unlockMutex   -- lock_guard destruction, lines 301 and 310
  | cacheLookup   -- gVerifySigCache.exists(cacheKey), line 296
  | cacheGet      -- gVerifySigCache.get(cacheKey), line 299
  | cachePut      -- gVerifySigCache.put(cacheKey, ok), line 308
  | incHit        -- ++gVerifyCacheHit, line 298
  | incMiss       -- ++gVerifyCacheMiss, line 303
  | verifyPrimitive -- crypto_sign_verify_detached, lines 305 to 306
  deriving DecidableEq

-- Path taken when the signature length differs from 64: return false at
-- line 289, before any shared state is touched.
def verifySigTraceBadLength : List Ev := []

-- Path taken on a cache hit: the key is derived on the shared hasher, the
-- mutex is taken, the lookup, hit counter bump and read happen, and the
-- guard releases the mutex when the function returns at line 299.
def verifySigTraceHit : List Ev :=
  [Ev.hasherReset, Ev.hasherAdd, Ev.hasherAdd, Ev.hasherAdd, Ev.hasherFinish,
   Ev.lockMutex, Ev.cacheLookup, Ev.incHit, Ev.cacheGet, Ev.unlockMutex]

-- Path taken on a cache miss: the key derivation and first critical section
-- as above; the inner scope ends at line 301 releasing the mutex; the miss
-- counter bump at line 303 and the primitive call at lines 305 to 306 run
-- with the mutex free; a second guard at line 307 protects the insert.
def verifySigTraceMiss : List Ev :=
  [Ev.hasherReset, Ev.hasherAdd, Ev.hasherAdd, Ev.hasherAdd, Ev.hasherFinish,
   Ev.lockMutex, Ev.cacheLookup, Ev.unlockMutex,
   Ev.incMiss, Ev.verifyPrimitive,
   Ev.lockMutex, Ev.cachePut, Ev.unlockMutex]

def countEv (e : Ev) (l : List Ev) : Nat :=
  l.countP (fun x => decide (x = e))

-- The mutex is held when the event at position i executes iff the prefix
-- before i holds more acquisitions than releases.
def mutexHeldAt (tr : List Ev) (i : Nat) : Bool :=
  decide (countEv Ev.unlockMutex (tr.take i) < countEv Ev.lockMutex (tr.take i))

def isCacheOrHitEv (e : Ev) : Bool :=
  decide (e = Ev.cacheLookup ∨ e = Ev.cacheGet ∨ e = Ev.cachePut ∨ e = Ev.incHit)

def isOutsideMutexEv (e : Ev) : Bool :=
  decide (e = Ev.hasherReset ∨ e = Ev.hasherAdd ∨ e = Ev.hasherFinish ∨
    e = Ev.incMiss ∨ e = Ev.verifyPrimitive)

-- A trace respects the observed locking discipline when every cache access
-- and the hit counter bump run under the mutex, while the hasher mutations,
-- the miss counter bump and the primitive verify run with the mutex free.
def lockDisciplineOk (tr : List Ev) : Bool :=
  (List.range tr.length).all fun i =>
    let e := tr.getD i Ev.lockMutex
    (!(isCacheOrHitEv e) || mutexHeldAt tr i) &&
      (!(isOutsideMutexEv e) || !(mutexHeldAt tr i))

-- ## Theorems

/-- C7: when the signature length differs from 64, verifySig returns false
with the whole shared state unchanged: no cache key is computed, the cache is
untouched and neither counter moves; this is a plain false result, not an
error. -/
theorem verifySig_bad_length_rejects (verifyDetached : PublicKey → Bytes → Bytes → Bool)
    (sha256 : Bytes → Bytes) (st : VState) (key : PublicKey) (signature bin : Bytes)
    (hlen : signature.length ≠ 64) :
    verifySig verifyDetached sha256 st key signature bin = (false, st) := by
  simp [verifySig, hlen]

theorem verifySig_bad_length_rejects_witness :
    ([0, 1, 2] : Bytes).length ≠ 64 ∧
      verifySig (fun _ _ _ => true) (fun _ => []) initialVState ⟨[]⟩ [0, 1, 2] [] =
        (false, initialVState) :=
  ⟨by decide,
    verifySig_bad_length_rejects (fun _ _ _ => true) (fun _ => [])
      initialVState ⟨[]⟩ [0, 1, 2] [] (by decide)⟩

/-- C4: fromSeed fails with invalidInput exactly when the seed length differs
from the required 32 bytes, and on every 32 byte seed it succeeds with a
value determined by the seed alone, so two calls with the same seed yield the
same key pair. -/
theorem fromSeed_invalid_iff_bad_length (seedKeypair : Bytes → Bytes × Bytes)
    (seed : Bytes) :
    (fromSeed seedKeypair seed = Except.error CryptoError.invalidInput ↔
      seed.length ≠ 32) ∧
    (seed.length = 32 →
      fromSeed seedKeypair seed = Except.ok ⟨(seedKeypair seed).2⟩) := by
  constructor
  · by_cases h : seed.length = 32 <;> simp [fromSeed, crypto_sign_SEEDBYTES, h]
  · intro h
    simp [fromSeed, crypto_sign_SEEDBYTES, h]

theorem fromSeed_invalid_iff_bad_length_witness :
    (List.replicate 32 0 : Bytes).length = 32 ∧
      fromSeed (fun s => (s, s ++ s)) (List.replicate 32 0) =
        Except.ok ⟨List.replicate 32 0 ++ List.replicate 32 0⟩ :=
  ⟨by decide, (fromSeed_invalid_iff_bad_length (fun s => (s, s ++ s))
    (List.replicate 32 0)).2 (by decide)⟩

/-- C6: the destructor bodies of SecretKey and Seed overwrite every byte of
the backing secret storage with zero, preserving its length: after the
memset, the buffer reads as all zero bytes. -/
theorem destructors_zeroize_storage (sk : SecretKey) (sd : Seed) :
    (secretKeyDestructor sk).length = sk.mSecretKey.length ∧
    (secretKeyDestructor sk).all (fun b => b == 0) = true ∧
    (seedDestructor sd).length = sd.mSeed.length ∧
    (seedDestructor sd).all (fun b => b == 0) = true := by
  refine ⟨?_, ?_, ?_, ?_⟩ <;>
    simp [secretKeyDestructor, seedDestructor, memset, List.all_eq_true]

/-- C9: logKey tries the three interpretations in the fixed order hex, then
encoded public key, then encoded seed; it short circuits on the first
success, a failed attempt is discarded silently, the function is total so no
error reaches the caller, and when all three fail the generic unknown key
type report is produced. -/
theorem logKey_ordered_attempts (hexToBin256 : String → Option Bytes)
    (fromPsrKey : String → Option PublicKey)
    (fromPsrKeySeed : String → Option SecretKey) (key : String) :
    (∀ data, hexToBin256 key = some data →
      logKey hexToBin256 fromPsrKey fromPsrKeySeed key = KeyReport.hexKey data) ∧
    (hexToBin256 key = none → ∀ pk, fromPsrKey key = some pk →
      logKey hexToBin256 fromPsrKey fromPsrKeySeed key =
        KeyReport.publicKeyReport pk) ∧
    (hexToBin256 key = none → fromPsrKey key = none →
      ∀ sk, fromPsrKeySeed key = some sk →
        logKey hexToBin256 fromPsrKey fromPsrKeySeed key = KeyReport.seedReport sk) ∧
    (hexToBin256 key = none → fromPsrKey key = none → fromPsrKeySeed key = none →
      logKey hexToBin256 fromPsrKey fromPsrKeySeed key =
        KeyReport.unknownKeyType) := by
  refine ⟨?_, ?_, ?_, ?_⟩
  · intro data h
    simp [logKey, h]
  · intro h pk h2
    simp [logKey, h, h2]
  · intro h h2 sk h3
    simp [logKey, h, h2, h3]
  · intro h h2 h3
    simp [logKey, h, h2, h3]

theorem logKey_ordered_attempts_witness :
    logKey (fun _ => none) (fun _ => none) (fun _ => none) "zzz" =
      KeyReport.unknownKeyType :=
  (logKey_ordered_attempts (fun _ => none) (fun _ => none) (fun _ => none)
    "zzz").2.2.2 rfl rfl rfl

/-- C10: the standard hash of a 32 byte value depends only on its first four
bytes, and the PublicKey hash delegates to the uint256 hash of the ed25519
bytes: two 32 byte values agreeing on bytes 0 to 3 hash identically even
when the remaining 28 bytes differ. -/
theorem hashUint256_first_four_bytes (x y : Bytes)
    (hx : x.length = 32) (hy : y.length = 32)
    (h0 : x.getD 0 0 = y.getD 0 0) (h1 : x.getD 1 0 = y.getD 1 0)
    (h2 : x.getD 2 0 = y.getD 2 0) (h3 : x.getD 3 0 = y.getD 3 0) :
    hashUint256 x = hashUint256 y ∧
      ∀ k : PublicKey, hashPublicKey k = hashUint256 k.ed25519 := by
  refine ⟨?_, fun k => rfl⟩
  unfold hashUint256
  rw [h0, h1, h2, h3]

theorem hashUint256_first_four_bytes_witness :
    hashUint256 ([1, 2, 3, 4] ++ List.replicate 28 5) =
      hashUint256 ([1, 2, 3, 4] ++ List.replicate 28 9) :=
  (hashUint256_first_four_bytes ([1, 2, 3, 4] ++ List.replicate 28 5)
    ([1, 2, 3, 4] ++ List.replicate 28 9) (by decide) (by decide)
    (by decide) (by decide) (by decide) (by decide)).1

/-- C2 counterexample: on the cache miss path the miss counter increment
(line 303, position 8 of the trace) executes with the mutex free, because
the first lock_guard scope ends at line 301; moreover the shared hasher
object is mutated (position 0) before any lock is taken. This refutes the
claim that every write of shared state, in particular the miss counter
increment, happens while holding the cache mutex, and that the cache and the
two counters are the only shared mutable state. -/
theorem verifySig_miss_increment_not_under_mutex :
    verifySigTraceMiss.getD 8 Ev.lockMutex = Ev.incMiss ∧
      mutexHeldAt verifySigTraceMiss 8 = false ∧
      verifySigTraceMiss.getD 0 Ev.lockMutex = Ev.hasherReset ∧
      mutexHeldAt verifySigTraceMiss 0 = false := by decide

/-- C2 amended: on every path of verifySig, the cache lookup, the cache
read, the cache insert and the hit counter increment all execute while the
mutex is held, while the cache key derivation on the shared hasher object,
the miss counter increment and the primitive verify call all execute with
the mutex free. -/
theorem verifySig_lock_discipline :
    lockDisciplineOk verifySigTraceBadLength = true ∧
      lockDisciplineOk verifySigTraceHit = true ∧
      lockDisciplineOk verifySigTraceMiss = true := by decide

-- Step equations for verifySig, shared by the cache claims.

lemma verifySig_miss_eq (verifyDetached : PublicKey → Bytes → Bytes → Bool)
    (sha256 : Bytes → Bytes) (st : VState) (key : PublicKey) (signature bin : Bytes)
    (hlen : signature.length = 64)
    (hfind : st.cache.find (verifySigCacheKey sha256 key signature bin) = none) :
    verifySig verifyDetached sha256 st key signature bin =
      (verifyDetached key signature bin,
        ⟨st.cache.put (verifySigCacheKey sha256 key signature bin)
            (verifyDetached key signature bin),
          st.hit, uint64 (st.miss + 1)⟩) := by
  unfold verifySig
  rw [if_neg (by simp [hlen])]
  simp [Lru.get, hfind]

lemma verifySig_hit_eq (verifyDetached : PublicKey → Bytes → Bytes → Bool)
    (sha256 : Bytes → Bytes) (st : VState) (key : PublicKey) (signature bin : Bytes)
    (hlen : signature.length = 64) (b : Bool)
    (hfind : st.cache.find (verifySigCacheKey sha256 key signature bin) = some b) :
    verifySig verifyDetached sha256 st key signature bin =
      (b, ⟨⟨st.cache.capacity,
            (verifySigCacheKey sha256 key signature bin, b) ::
              Lru.eraseKey st.cache.items (verifySigCacheKey sha256 key signature bin)⟩,
          uint64 (st.hit + 1), st.miss⟩) := by
  unfold verifySig
  rw [if_neg (by simp [hlen])]
  simp [Lru.get, hfind]

lemma find_put_self {K V : Type} [DecidableEq K] (c : Lru K V) (k : K) (v : V)
    (h : 1 ≤ c.capacity) : (c.put k v).find k = some v := by
  obtain ⟨m, hm⟩ : ∃ m, c.capacity = m + 1 := ⟨c.capacity - 1, by omega⟩
  simp [Lru.put, Lru.find, hm, List.take_succ_cons, List.find?_cons]

/-- C1: with a 64 byte signature, verifySig returns exactly the boolean the
uncached primitive verifyDetached returns, whatever the prior cache state:
empty or unrelated entries give a lookup miss, and an entry pre warmed with
the digest of this triple carries the primitive outcome for it (digests of
distinct triples are treated as collision free, as the spec assumes); in
every case only the counters, never the result, depend on the cache. -/
theorem verifySig_cache_transparent (verifyDetached : PublicKey → Bytes → Bytes → Bool)
    (sha256 : Bytes → Bytes) (st : VState) (key : PublicKey) (signature bin : Bytes)
    (hlen : signature.length = 64)
    (hcache :
      st.cache.find (verifySigCacheKey sha256 key signature bin) = none ∨
        st.cache.find (verifySigCacheKey sha256 key signature bin) =
          some (verifyDetached key signature bin)) :
    (verifySig verifyDetached sha256 st key signature bin).1 =
      verifyDetached key signature bin := by
  cases hcache with
  | inl h =>
    rw [verifySig_miss_eq verifyDetached sha256 st key signature bin hlen h]
  | inr h =>
    rw [verifySig_hit_eq verifyDetached sha256 st key signature bin hlen _ h]

theorem verifySig_cache_transparent_witness :
    (List.replicate 64 0 : Bytes).length = 64 ∧
      (verifySig (fun _ _ _ => true) (fun _ => []) initialVState ⟨[]⟩
        (List.replicate 64 0) []).1 = true :=
  ⟨by decide,
    verifySig_cache_transparent (fun _ _ _ => true) (fun _ => []) initialVState ⟨[]⟩
      (List.replicate 64 0) [] (by decide) (Or.inl rfl)⟩

/-- C3: starting from the empty cache with zeroed counters, two verifySig
calls with identical arguments and a 64 byte signature leave the miss
counter at 1 (the first call misses and stores the outcome) and the hit
counter at 1 (the second call hits); flushVerifySigCacheCounts then returns
the pair (1, 1) and resets both counters to zero, leaving the cache alone. -/
theorem verifySig_twice_counts (verifyDetached : PublicKey → Bytes → Bytes → Bool)
    (sha256 : Bytes → Bytes) (key : PublicKey) (signature bin : Bytes)
    (hlen : signature.length = 64) (r1 r2 : Bool × VState)
    (h1 : verifySig verifyDetached sha256 initialVState key signature bin = r1)
    (h2 : verifySig verifyDetached sha256 r1.2 key signature bin = r2) :
    r2.2.hit = 1 ∧ r2.2.miss = 1 ∧
      flushVerifySigCacheCounts r2.2 = ((1, 1), ⟨r2.2.cache, 0, 0⟩) := by
  subst h2
  subst h1
  rw [verifySig_miss_eq verifyDetached sha256 initialVState key signature bin hlen rfl]
  dsimp only
  rw [verifySig_hit_eq verifyDetached sha256 _ key signature bin hlen _
    (find_put_self _ _ _ (by decide))]
  refine ⟨?_, ?_, ?_⟩ <;> norm_num [flushVerifySigCacheCounts, uint64, initialVState]

theorem verifySig_twice_counts_witness :
    (verifySig (fun _ _ _ => true) (fun _ => [])
        (verifySig (fun _ _ _ => true) (fun _ => []) initialVState ⟨[]⟩
          (List.replicate 64 0) []).2 ⟨[]⟩ (List.replicate 64 0) []).2.hit = 1 ∧
    (verifySig (fun _ _ _ => true) (fun _ => [])
        (verifySig (fun _ _ _ => true) (fun _ => []) initialVState ⟨[]⟩
          (List.replicate 64 0) []).2 ⟨[]⟩ (List.replicate 64 0) []).2.miss = 1 ∧
    flushVerifySigCacheCounts
        (verifySig (fun _ _ _ => true) (fun _ => [])
          (verifySig (fun _ _ _ => true) (fun _ => []) initialVState ⟨[]⟩
            (List.replicate 64 0) []).2 ⟨[]⟩ (List.replicate 64 0) []).2 =
      ((1, 1),
        ⟨(verifySig (fun _ _ _ => true) (fun _ => [])
            (verifySig (fun _ _ _ => true) (fun _ => []) initialVState ⟨[]⟩
              (List.replicate 64 0) []).2 ⟨[]⟩ (List.replicate 64 0) []).2.cache,
          0, 0⟩) :=
  verifySig_twice_counts (fun _ _ _ => true) (fun _ => []) ⟨[]⟩
    (List.replicate 64 0) [] (by decide) _ _ rfl rfl

/-- C5: for every 32 byte seed, extracting the seed from the secret key that
fromSeed builds returns exactly that seed, provided the external primitives
satisfy their contract that seed extraction undoes seed expansion (the
libsodium expanded secret key stores the seed, which
crypto_sign_ed25519_sk_to_seed reads back). -/
theorem getSeed_fromSeed_roundtrip (seedKeypair : Bytes → Bytes × Bytes)
    (skToSeed : Bytes → Bytes)
    (hprim : ∀ t : Bytes, t.length = 32 → skToSeed (seedKeypair t).2 = t)
    (s : Bytes) (hs : s.length = 32) (sk : SecretKey)
    (hsk : fromSeed seedKeypair s = Except.ok sk) :
    (getSeed skToSeed sk).mSeed = s := by
  unfold fromSeed at hsk
  rw [if_neg (by simp [crypto_sign_SEEDBYTES, hs])] at hsk
  injection hsk with h
  subst h
  simp [getSeed, hprim s hs]

theorem getSeed_fromSeed_roundtrip_witness :
    (getSeed (fun l => l.take 32)
        ⟨List.replicate 32 7 ++ (List.replicate 32 7).map (fun b => b + 1)⟩).mSeed =
      List.replicate 32 7 :=
  getSeed_fromSeed_roundtrip
    (fun t => (t.map (fun b => b + 1), t ++ t.map (fun b => b + 1)))
    (fun l => l.take 32)
    (fun t ht => by rw [← ht]; exact List.take_left t (t.map (fun b => b + 1)))
    (List.replicate 32 7) (by decide) _ rfl

-- Structural lemmas on the modelled LRU store, shared by the capacity claim.

lemma eraseKey_of_forall_ne {K V : Type} [DecidableEq K] (l : List (K × V)) (k : K)
    (h : ∀ p ∈ l, p.1 ≠ k) : Lru.eraseKey l k = l := by
  unfold Lru.eraseKey
  exact List.filter_eq_self.mpr (fun p hp => by simp [h p hp])

lemma contains_false_iff {K V : Type} [DecidableEq K] (c : Lru K V) (k : K) :
    c.contains k = false ↔ ∀ p ∈ c.items, p.1 ≠ k := by
  simp [Lru.contains, Lru.find, List.find?_eq_none]

lemma contains_of_mem {K V : Type} [DecidableEq K] (c : Lru K V) (k : K) (v : V)
    (h : (k, v) ∈ c.items) : c.contains k = true := by
  have hfind : (c.items.find? (fun p => decide (p.1 = k))).isSome :=
    List.find?_isSome.mpr ⟨(k, v), h, by simp⟩
  simpa [Lru.contains, Lru.find] using hfind

lemma take_append_take {α : Type} (A B : List α) (n : Nat) :
    (A ++ B.take n).take n = (A ++ B).take n := by
  rw [List.take_append_eq_append_take, List.take_append_eq_append_take,
    List.take_take, min_eq_left (Nat.sub_le n A.length)]

lemma putMany_items {K V : Type} [DecidableEq K] (v : V) (ks : List K) :
    ∀ c : Lru K V, c.items.length ≤ c.capacity → ks.Nodup →
      (∀ k ∈ ks, ∀ p ∈ c.items, p.1 ≠ k) →
      (c.putMany ks v).items =
        (ks.reverse.map (fun k => (k, v)) ++ c.items).take c.capacity ∧
      (c.putMany ks v).capacity = c.capacity := by
  induction ks with
  | nil =>
    intro c hle _ _
    refine ⟨?_, rfl⟩
    simp [Lru.putMany, List.take_of_length_le hle]
  | cons k ks ih =>
    intro c hle hnd hfresh
    have hkc : ∀ p ∈ c.items, p.1 ≠ k := hfresh k (List.mem_cons_self k ks)
    have herase : Lru.eraseKey c.items k = c.items := eraseKey_of_forall_ne _ _ hkc
    have hput_items : (c.put k v).items = ((k, v) :: c.items).take c.capacity := by
      simp [Lru.put, herase]
    have hput_cap : (c.put k v).capacity = c.capacity := rfl
    have hle2 : (c.put k v).items.length ≤ (c.put k v).capacity := by
      rw [hput_items, hput_cap]
      exact List.length_take_le _ _
    have hnd2 := List.nodup_cons.mp hnd
    have hfresh2 : ∀ k2 ∈ ks, ∀ p ∈ (c.put k v).items, p.1 ≠ k2 := by
      intro k2 hk2 p hp
      rw [hput_items] at hp
      rcases List.mem_cons.mp (List.mem_of_mem_take hp) with h | h
      · rw [h]
        dsimp only
        intro heq
        exact hnd2.1 (heq ▸ hk2)
      · exact hfresh k2 (List.mem_cons_of_mem _ hk2) p h
    have hmain := ih (c.put k v) hle2 hnd2.2 hfresh2
    have hfold : Lru.putMany c (k :: ks) v = Lru.putMany (c.put k v) ks v := rfl
    refine ⟨?_, ?_⟩
    · rw [hfold, hmain.1, hput_cap, hput_items, take_append_take]
      congr 1
      simp [List.reverse_cons]
    · rw [hfold, hmain.2, hput_cap]

/-- C8: the signature verification cache is constructed with the fixed
capacity 0xffff; an insert never leaves more than capacity entries; and from
any state within capacity, inserting capacity plus one distinct fresh keys
leaves exactly capacity entries, with the first inserted key, the least
recently read or written one at the moment of the overflow insert, evicted
and the remaining keys all present. -/
theorem verifySigCache_capacity_lru_eviction :
    gVerifySigCacheCapacity = 0xffff ∧
    (∀ (c : Lru Bytes Bool) (k : Bytes) (v : Bool), (c.put k v).size ≤ c.capacity) ∧
    (∀ (c : Lru Bytes Bool) (ks : List Bytes) (v : Bool),
      c.size ≤ c.capacity → ks.Nodup → (∀ k ∈ ks, c.contains k = false) →
      ks.length = c.capacity + 1 →
        (c.putMany ks v).size = c.capacity ∧
        (∀ k0, ks.head? = some k0 → (c.putMany ks v).contains k0 = false) ∧
        (∀ k ∈ ks.tail, (c.putMany ks v).contains k = true)) := by
  refine ⟨rfl, ?_, ?_⟩
  · intro c k v
    simp only [Lru.size, Lru.put, List.length_take]
    exact Nat.min_le_left _ _
  · intro c ks v hle hnd hconts hlen
    have hfresh : ∀ k ∈ ks, ∀ p ∈ c.items, p.1 ≠ k :=
      fun k hk => (contains_false_iff c k).mp (hconts k hk)
    obtain ⟨heq, hcap⟩ := putMany_items v ks c hle hnd hfresh
    obtain ⟨k0, t, rfl⟩ : ∃ k0 t, ks = k0 :: t := by
      cases ks with
      | nil => simp at hlen
      | cons a l => exact ⟨a, l, rfl⟩
    have hlt : t.length = c.capacity := by
      simp at hlen
      omega
    have hlenA : (t.reverse.map (fun k => (k, v))).length = c.capacity := by
      simp [hlt]
    have hitems : (Lru.putMany c (k0 :: t) v).items =
        t.reverse.map (fun k => (k, v)) := by
      rw [heq]
      rw [show (k0 :: t).reverse.map (fun k => (k, v)) =
        t.reverse.map (fun k => (k, v)) ++ [(k0, v)] by simp]
      rw [List.append_assoc, ← hlenA]
      exact List.take_left _ _
    refine ⟨?_, ?_, ?_⟩
    · simp [Lru.size, hitems, hlt]
    · intro k1 hk1
      simp only [List.head?_cons, Option.some.injEq] at hk1
      subst hk1
      apply (contains_false_iff _ _).mpr
      intro p hp
      rw [hitems] at hp
      obtain ⟨k2, hk2, rfl⟩ := List.mem_map.mp hp
      dsimp only
      intro heq
      exact (List.nodup_cons.mp hnd).1 (heq ▸ List.mem_reverse.mp hk2)
    · intro k hk
      apply contains_of_mem _ _ v
      rw [hitems]
      exact List.mem_map.mpr ⟨k, List.mem_reverse.mpr (by simpa using hk), rfl⟩

theorem verifySigCache_capacity_lru_eviction_witness :
    (Lru.putMany (Lru.empty Bytes Bool 2) [[0], [1], [2]] true).size = 2 ∧
    (Lru.putMany (Lru.empty Bytes Bool 2) [[0], [1], [2]] true).contains [0] = false ∧
    (Lru.putMany (Lru.empty Bytes Bool 2) [[0], [1], [2]] true).contains [1] = true := by
  have h := verifySigCache_capacity_lru_eviction.2.2 (Lru.empty Bytes Bool 2)
    [[0], [1], [2]] true (by decide) (by decide) (by decide) (by decide)
  exact ⟨h.1, h.2.1 [0] rfl, h.2.2 [1] (by decide)⟩

end Payshares
